import Mathlib

/-!
Verification development for the numeric core of
`ssm_analyze/gui/widgets/plots.py`: background subtraction, best-fit
reductions, slice extraction, rotation dispatch, unit-conversion fallback,
export error handling, and the background-subtraction index resolution.

Numpy arrays of floats are modelled as lists of `PyF` values (exact
rationals for finite floats, plus the non-finite values nan, +inf, -inf)
or, where non-finite values cannot occur in the claim, as lists of `ℚ`.
-/

set_option autoImplicit false

/-- Model of a Python/numpy floating-point value: a finite real (modelled
exactly as a rational) or one of the non-finite values nan, +inf, -inf. -/
inductive PyF where
  | fin : ℚ → PyF
  | nan : PyF
  | inf : PyF
  | ninf : PyF
deriving DecidableEq

namespace PyF

/-- Model of `np.isfinite` on a scalar. -/
def isfinite : PyF → Bool
  | fin _ => true
  | _ => false

/-- The rational value of a finite float, `none` for non-finite values. -/
def toRat : PyF → Option ℚ
  | fin q => some q
  | _ => none

/-- IEEE-style negation. -/
def neg : PyF → PyF
  | fin q => fin (-q)
  | nan => nan
  | inf => ninf
  | ninf => inf

/-- IEEE-style addition: nan propagates, inf + (-inf) = nan. -/
def add : PyF → PyF → PyF
  | fin a, fin b => fin (a + b)
  | fin _, inf => inf
  | fin _, ninf => ninf
  | inf, fin _ => inf
  | inf, inf => inf
  | inf, ninf => nan
  | ninf, fin _ => ninf
  | ninf, inf => nan
  | ninf, ninf => ninf
  | nan, _ => nan
  | _, nan => nan

/-- IEEE-style subtraction, defined as addition of the negation. -/
def sub (a b : PyF) : PyF := add a (neg b)

/-- IEEE-style multiplication: nan propagates, 0 times an infinity is nan. -/
def mul : PyF → PyF → PyF
  | fin a, fin b => fin (a * b)
  | fin a, inf => if 0 < a then inf else if a < 0 then ninf else nan
  | fin a, ninf => if 0 < a then ninf else if a < 0 then inf else nan
  | inf, fin b => if 0 < b then inf else if b < 0 then ninf else nan
  | ninf, fin b => if 0 < b then ninf else if b < 0 then inf else nan
  | inf, inf => inf
  | inf, ninf => ninf
  | ninf, inf => ninf
  | ninf, ninf => inf
  | nan, _ => nan
  | _, nan => nan

/-- IEEE-style division as numpy performs it elementwise: x/0 is a signed
infinity (0/0 is nan), finite/infinite is 0, infinite/infinite is nan. -/
def div : PyF → PyF → PyF
  | fin a, fin b =>
      if b = 0 then (if a = 0 then nan else if 0 < a then inf else ninf)
      else fin (a / b)
  | fin _, inf => fin 0
  | fin _, ninf => fin 0
  | inf, fin b => if 0 ≤ b then inf else ninf
  | ninf, fin b => if 0 ≤ b then ninf else inf
  | inf, inf => nan
  | inf, ninf => nan
  | ninf, inf => nan
  | ninf, ninf => nan
  | nan, _ => nan
  | _, nan => nan

end PyF

/-- Sum of a list of floats, as taken by `np.sum`; non-finite values
propagate through `PyF.add`. -/
def pfSum (l : List PyF) : PyF := l.foldr PyF.add (PyF.fin 0)

/-- Number of columns of a 2D numpy array modelled as a list of rows
(the length of the first row; numpy arrays are rectangular). -/
def ncols {α : Type} (z : List (List α)) : ℕ := (z.getD 0 []).length

/-- Column `c` of a rational matrix, as read by `zdata[:, c]`. -/
def getCol (z : List (List ℚ)) (c : ℕ) : List ℚ := z.map (fun r => r.getD c 0)

/-- Column `c` of a float matrix, as read by `z[:, c]`. -/
def getColF (z : List (List PyF)) (c : ℕ) : List PyF :=
  z.map (fun r => r.getD c (PyF.fin 0))

/-- Entry `(r, c)` of a rational matrix. -/
def getEntry (z : List (List ℚ)) (r c : ℕ) : ℚ := (z.getD r []).getD c 0

/-!
### subtract_line_by_line (plots.py lines 73-93) and its heap model

The Python function receives a reference to the caller array, rebinds the
local name `zdata` to a fresh copy (line 86: `zdata = zdata.copy()`), and
then performs in-place writes on that copy.  To settle the frame claim we
track both buffers explicitly: `caller` is the array the caller passed and
`zdata` is the buffer currently bound to the local name.  While the two
names alias the same buffer (`aliased = true`) a write through `zdata`
also changes `caller`; after the copy they are distinct buffers.
-/

/-- The two array buffers visible inside `subtract_line_by_line`. -/
structure SllHeap where
  caller : List (List ℚ)
  zdata : List (List ℚ)
  aliased : Bool
deriving DecidableEq

/-- An in-place write through the local name `zdata`: it updates the buffer
bound to `zdata`, and also the caller buffer exactly when the two names
still alias the same buffer. -/
def sllWrite (h : SllHeap) (g : List (List ℚ) → List (List ℚ)) : SllHeap :=
  { caller := if h.aliased then g h.caller else h.caller
    zdata := g h.zdata
    aliased := h.aliased }

/-- Line 86, `zdata = zdata.copy()`: the local name is rebound to a fresh
buffer with the same contents, so it no longer aliases the caller array. -/
def sllCopy (h : SllHeap) : SllHeap := { h with aliased := false }

/-- Line 89, `zdata[i, :] -= func(zdata[i, :])`: one iteration of the
axis-0 loop body, an in-place update of row `i` (`List.set` is a no-op for
an out-of-range index, which cannot occur for `i` in `range(shape[0])`). -/
def rowOp (f : List ℚ → ℚ) (i : ℕ) (zd : List (List ℚ)) : List (List ℚ) :=
  zd.set i ((zd.getD i []).map (fun v => v - f (zd.getD i [])))

/-- Line 92, `zdata[:, i] -= func(zdata[:, i])`: one iteration of the
other-axis loop body, an in-place update of column `i`. -/
def colOp (f : List ℚ → ℚ) (i : ℕ) (zd : List (List ℚ)) : List (List ℚ) :=
  zd.map (fun row => row.set i (row.getD i 0 - f (getCol zd i)))

/-- Lines 88-89: `for i in range(zdata.shape[0]): zdata[i, :] -= func(...)`,
iterated over the given index list. -/
def sllRowLoop (f : List ℚ → ℚ) : List ℕ → SllHeap → SllHeap
  | [], h => h
  | i :: rest, h => sllRowLoop f rest (sllWrite h (rowOp f i))

/-- Lines 91-92: `for i in range(zdata.shape[axis]): zdata[:, i] -= func(...)`.
Reading or writing `zdata[:, i]` with `i` not less than the number of
columns raises IndexError; the Boolean result records normal completion. -/
def sllColLoop (f : List ℚ → ℚ) : List ℕ → SllHeap → SllHeap × Bool
  | [], h => (h, true)
  | i :: rest, h =>
      if i < ncols h.zdata then sllColLoop f rest (sllWrite h (colOp f i))
      else (h, false)

/-- Python tuple indexing `t[i]` for the shape tuple: a non-negative index
must be less than the length, a negative index counts from the end, and
anything else raises IndexError (modelled as `none`). -/
def pyTupleGet (l : List ℕ) (i : ℤ) : Option ℕ :=
  if 0 ≤ i then (if i.toNat < l.length then some (l.getD i.toNat 0) else none)
  else (if 0 ≤ i + l.length then some (l.getD (i + l.length).toNat 0) else none)

/-- Model of `subtract_line_by_line(zdata, axis, func)` (plots.py lines
73-93).  The first component is the heap after the call (its `caller`
field is the caller array after the call); the second component is the
returned array, or `none` when the call raises.  Line 87 tests `axis == 0`
and otherwise loops `range(zdata.shape[axis])` over columns. -/
def subtract_line_by_line (z : List (List ℚ)) (axis : ℤ) (f : List ℚ → ℚ) :
    SllHeap × Option (List (List ℚ)) :=
  let h0 := sllCopy { caller := z, zdata := z, aliased := true }
  if axis = 0 then
    let h1 := sllRowLoop f (List.range h0.zdata.length) h0
    (h1, some h1.zdata)
  else
    match pyTupleGet [h0.zdata.length, ncols h0.zdata] axis with
    | none => (h0, none)
    | some n =>
        let r := sllColLoop f (List.range n) h0
        (r.1, if r.2 then some r.1.zdata else none)

/-!
### fit_line (lines 96-99) and fit_plane (lines 102-109)

`np.polyfit(x, y, 1)` is modelled as the degree-1 ordinary-least-squares
normal equations evaluated with non-finite values propagating through the
arithmetic (numpy itself either propagates nans or raises a linear-algebra
error when `y` contains non-finite values; in both cases the result is not
the least-squares fit of the finite subset).  `scipy.linalg.lstsq` is an
external dense solver; it is modelled as a parameter `solver`, so every
theorem about `fit_plane` holds for an arbitrary solver.
-/

/-- Model of `fit_line(x, y)` (lines 96-99): `np.polyfit(x, y, 1)` on all
supplied points followed by evaluation of `slope * x + offset`. -/
def fit_line (x : List ℚ) (y : List PyF) : List PyF :=
  let n : ℚ := x.length
  let sx := PyF.fin x.sum
  let sxx := PyF.fin (x.map (fun a => a * a)).sum
  let sy := pfSum y
  let sxy := pfSum ((x.zip y).map (fun p => PyF.mul (PyF.fin p.1) p.2))
  let slope := PyF.div (PyF.sub (PyF.mul (PyF.fin n) sxy) (PyF.mul sx sy))
    (PyF.sub (PyF.mul (PyF.fin n) sxx) (PyF.mul sx sx))
  let offset := PyF.div (PyF.sub sy (PyF.mul slope sx)) (PyF.fin n)
  x.map (fun a => PyF.add (PyF.mul slope (PyF.fin a)) offset)

/-- The best-fit line as the specification describes it: ordinary least
squares restricted to the positions where `y` is finite, evaluated at all
of `x`.  This is the reference point the refinement claim compares
`fit_line` against (rational division by zero is 0, which only arises for
degenerate masked data). -/
def fit_line_masked (x : List ℚ) (y : List PyF) : List PyF :=
  let pts := (x.zip y).filterMap (fun p => (PyF.toRat p.2).map (fun q => (p.1, q)))
  let k : ℚ := pts.length
  let sx := (pts.map (fun p => p.1)).sum
  let sy := (pts.map (fun p => p.2)).sum
  let sxx := (pts.map (fun p => p.1 * p.1)).sum
  let sxy := (pts.map (fun p => p.1 * p.2)).sum
  let slope := (k * sxy - sx * sy) / (k * sxx - sx * sx)
  let offset := (sy - slope * sx) / k
  x.map (fun a => PyF.fin (slope * a + offset))

/-- Lines 104-107 of `fit_plane`: `X, Y = np.meshgrid(x, y)` gives
`X[i][j] = x[j]`, `Y[i][j] = y[i]`; `mask = np.isfinite(z)`;
`r = np.column_stack((X[mask], Y[mask], ones))` paired with `z[mask]`,
in row-major order as numpy boolean indexing produces them. -/
def maskPair (yi : ℚ) (q : ℚ × PyF) : Option ((ℚ × ℚ × ℚ) × ℚ) :=
  match q.2 with
  | PyF.fin v => some ((q.1, yi, 1), v)
  | _ => none

/-- The masked rows and values handed to the solver, in row-major order. -/
def maskedData (x y : List ℚ) (z : List (List PyF)) :
    List ((ℚ × ℚ × ℚ) × ℚ) :=
  (y.zip z).flatMap (fun p => (x.zip p.2).filterMap (maskPair p.1))

/-- Line 108: `plane = coeffs[0] * X + coeffs[1] * Y + coeffs[2]`,
evaluated over the meshgrid of `x` and `y`. -/
def planeEval (x y : List ℚ) (c : ℚ × ℚ × ℚ) : List (List ℚ) :=
  y.map (fun yi => x.map (fun xj => c.1 * xj + c.2.1 * yi + c.2.2))

/-- Model of `fit_plane(x, y, z)` (lines 102-109), parameterised by the
least-squares solver standing for `scipy.linalg.lstsq`: the solver only
receives the rows and values at positions where `z` is finite. -/
def fit_plane (solver : List (ℚ × ℚ × ℚ) → List ℚ → ℚ × ℚ × ℚ)
    (x y : List ℚ) (z : List (List PyF)) : List (List ℚ) :=
  planeEval x y
    (solver ((maskedData x y z).map Prod.fst) ((maskedData x y z).map Prod.snd))

/-- Observational equality of floats for the masking claim: equal
finiteness, and equal values where finite (two non-finite values may
differ, e.g. nan versus inf). -/
def obsEq (a b : PyF) : Prop :=
  a.isfinite = b.isfinite ∧ (a.isfinite = true → a = b)

/-!
### Slice extraction (plot_2d_mpl lines 654-672 and the update callback
lines 718-790)
-/

/-- The slice selector: the radio buttons "x" and "y". -/
inductive SliceAxis where
  | x : SliceAxis
  | y : SliceAxis
deriving DecidableEq

/-- Numpy boolean-mask indexing `l[mask]`: keep the entries whose mask
position is true. -/
def applyMask {α : Type} (m : List Bool) (l : List α) : List α :=
  ((m.zip l).filter (fun p => p.1)).map (fun p => p.2)

/-- Lines 655-659: the coordinate array of the initial slice
(`xs.array.magnitude` for slice state "x", `ys.array.magnitude` for "y"). -/
def slice_source_xs (ax : SliceAxis) (xm ym : List PyF) : List PyF :=
  match ax with
  | SliceAxis.x => xm
  | SliceAxis.y => ym

/-- Lines 657-660: the initial slice values, `z[0, :]` for slice state "x"
and `z[:, 0]` for "y". -/
def slice_source_ys (ax : SliceAxis) (zm : List (List PyF)) : List PyF :=
  match ax with
  | SliceAxis.x => zm.getD 0 []
  | SliceAxis.y => getColF zm 0

/-- Lines 662-664: `mask = np.isfinite(slice_ys)` followed by
`slice_xs = slice_xs[mask]; slice_ys = slice_ys[mask]`. -/
def initial_slice (ax : SliceAxis) (xm ym : List PyF) (zm : List (List PyF)) :
    List PyF × List PyF :=
  let sxs := slice_source_xs ax xm ym
  let sys := slice_source_ys ax zm
  let mask := sys.map PyF.isfinite
  (applyMask mask sxs, applyMask mask sys)

/-- Lines 729 and 755 of the slider callback `update`: `z0 = z[i, :]` for
slice state "x" and `z0 = z[:, i]` for "y".  This unmasked array is what
`update` hands to `lc.set_array(z0)` and to the segment construction. -/
def update_slice_z0 (ax : SliceAxis) (zm : List (List PyF)) (i : ℕ) : List PyF :=
  match ax with
  | SliceAxis.x => zm.getD i []
  | SliceAxis.y => getColF zm i

/-!
### Rotation dispatch (plot_2d_mpl lines 635-637, plot_2d_qt lines 480-482)
-/

/-- Transpose of a rectangular matrix (numpy `.T`): column `j` of the input
becomes row `j` of the output. -/
def tpose (z : List (List ℚ)) : List (List ℚ) :=
  (List.range (ncols z)).map (fun j => z.map (fun r => r.getD j 0))

/-- The rotation stage `if angle: z = rotate(z, angle, cval=...)` of both
plotting pipelines: the Python truthiness test skips the call to
`scipy.ndimage.interpolation.rotate` (modelled as the parameter `rot`)
exactly when the angle equals zero. -/
def apply_rotation (rot : ℚ → List (List ℚ) → List (List ℚ))
    (angle : ℚ) (z : List (List ℚ)) : List (List ℚ) :=
  if angle = 0 then z else rot angle z

/-!
### Global background subtraction (subtract_background lines 886-905)
-/

/-- Model of `np.nanmean`: the mean of the finite entries, nan when there
are none. -/
def nanmean (l : List PyF) : PyF :=
  let fs := l.filterMap PyF.toRat
  if fs.length = 0 then PyF.nan else PyF.fin (fs.sum / fs.length)

/-- Line 897 (and 905 for 2D data): global background subtraction
`y - funcs[idx](y)`, the broadcast subtraction of the selected reduction
value from every entry.  For `idx = 3` the reduction is `np.nanmean`. -/
def subtract_background_global (f : List PyF → PyF) (y : List PyF) : List PyF :=
  y.map (fun v => PyF.sub v (f y))

/-!
### Unit-conversion fallback (replot lines 793-824, set_plot_from_name
lines 1070-1096)
-/

/-- Model of pint `array.ito(target)`: `conv u target` gives the scale
factor from unit `u` to `target` when the conversion is defined; on
failure the call raises and the quantity is left untouched. -/
def ito_model (conv : String → String → Option ℚ) (mag : List ℚ)
    (u target : String) : Option (List ℚ × String) :=
  (conv u target).map (fun k => (mag.map (fun a => a * k), target))

/-- The try/except pattern shared by `replot` (lines 806-809, 813-820) and
`set_plot_from_name` (lines 1070-1076, 1090-1095): attempt
`array.ito(<entered text>)`; on failure keep the array as it was and set
the displayed unit field to the string of the native unit.  The result is
`((magnitude, units), displayed text)` after the attempt; the function is
total, so no exception escapes. -/
def unit_convert_attempt (conv : String → String → Option ℚ) (mag : List ℚ)
    (u txt : String) : (List ℚ × String) × String :=
  match ito_model conv mag u txt with
  | some q => (q, txt)
  | none => ((mag, u), u)

/-!
### Export error handling (export_data lines 940-969, export_mpl 909-917)
-/

/-- Model of `export_data` (lines 940-969): the dialog path selects a
format; each save call is wrapped in `try: ... except Exception: pass`, so
whatever the save functions do the method returns normally. -/
def export_data (exp_data : List (String × List ℚ)) (path : String)
    (savemat saveh5 savepickle :
      String → List (String × List ℚ) → Except String Unit) :
    Except String Unit :=
  if exp_data.isEmpty then Except.ok ()
  else if path.endsWith "mat" then
    match savemat path exp_data with
    | Except.ok _ => Except.ok ()
    | Except.error _ => Except.ok ()
  else if path.endsWith "h5" then
    match saveh5 path exp_data with
    | Except.ok _ => Except.ok ()
    | Except.error _ => Except.ok ()
  else if path.endsWith "pickle" then
    match savepickle path exp_data with
    | Except.ok _ => Except.ok ()
    | Except.error _ => Except.ok ()
  else Except.ok ()

/-- Model of `export_mpl` (lines 909-917): after the early return for a
missing dataset, `self.fig.savefig(path, dpi=dpi)` is called with no
try/except around it, so a failing save propagates to the caller. -/
def export_mpl (dataset_is_none : Bool) (savefig : Except String Unit) :
    Except String Unit :=
  if dataset_is_none then Except.ok () else savefig

/-!
### Index resolution in subtract_background (line 866)
-/

/-- Line 866, `idx = idx or self.backsub_radio.checkedId()`: Python `or`
returns the right operand when the left is falsy, and both `None` and `0`
are falsy, so an explicit `idx = 0` is replaced by the checked id. -/
def subtract_background_idx (idx : Option ℤ) (checkedId : ℤ) : ℤ :=
  match idx with
  | none => checkedId
  | some i => if i = 0 then checkedId else i

/-!
## General list lemmas used throughout
-/

theorem listGetDSet {α : Type} (l : List α) (i : ℕ) (a : α) (j : ℕ) (d : α) :
    (l.set i a).getD j d = if j = i ∧ i < l.length then a else l.getD j d := by
  induction l generalizing i j with
  | nil => simp
  | cons x xs ih =>
    cases i with
    | zero =>
      cases j with
      | zero => simp
      | succ j => simp
    | succ i =>
      cases j with
      | zero => simp
      | succ j =>
        simp only [List.set_cons_succ, List.getD_cons_succ, ih, List.length_cons]
        have : (j = i ∧ i < xs.length) ↔ (j + 1 = i + 1 ∧ i + 1 < xs.length + 1) := by
          omega
        rw [if_congr this rfl rfl]

theorem listGetDMap {α β : Type} (g : α → β) (l : List α) (i : ℕ) (d : α)
    (d2 : β) (hi : i < l.length) : (l.map g).getD i d2 = g (l.getD i d) := by
  rw [List.getD_eq_getElem _ _ (by simpa using hi), List.getD_eq_getElem _ _ hi]
  simp

theorem mapGetDRange {α : Type} (l : List α) (d : α) :
    (List.range l.length).map (fun j => l.getD j d) = l := by
  apply List.ext_getElem (by simp)
  intro i h1 h2
  simp only [List.getElem_map, List.getElem_range]
  exact List.getD_eq_getElem l d h2

theorem getDMemOfLt {α : Type} (l : List α) (i : ℕ) (d : α) (hi : i < l.length) :
    l.getD i d ∈ l := by
  rw [List.getD_eq_getElem _ _ hi]
  exact List.getElem_mem hi

/-!
## Lemmas about the in-place loops of subtract_line_by_line
-/

theorem ncols_colOp (f : List ℚ → ℚ) (i : ℕ) (zd : List (List ℚ)) :
    ncols (colOp f i zd) = ncols zd := by
  cases zd with
  | nil => rfl
  | cons r t => simp [ncols, colOp]

theorem length_colOp (f : List ℚ → ℚ) (i : ℕ) (zd : List (List ℚ)) :
    (colOp f i zd).length = zd.length := by
  simp [colOp]

theorem rect_colOp (f : List ℚ → ℚ) (i : ℕ) (zd : List (List ℚ))
    (hrect : ∀ row ∈ zd, row.length = ncols zd) :
    ∀ row ∈ colOp f i zd, row.length = ncols (colOp f i zd) := by
  intro row hrow
  rw [ncols_colOp]
  simp only [colOp, List.mem_map] at hrow
  obtain ⟨r, hr, rfl⟩ := hrow
  simpa using hrect r hr

theorem getCol_colOp_ne (f : List ℚ → ℚ) (i c : ℕ) (zd : List (List ℚ))
    (hci : c ≠ i) : getCol (colOp f i zd) c = getCol zd c := by
  simp only [getCol, colOp, List.map_map]
  apply List.map_congr_left
  intro r _
  simp only [Function.comp_apply]
  rw [listGetDSet]
  simp [hci]

theorem getD_colOp (f : List ℚ → ℚ) (i : ℕ) (zd : List (List ℚ)) (r : ℕ)
    (hr : r < zd.length) :
    (colOp f i zd).getD r [] =
      (zd.getD r []).set i ((zd.getD r []).getD i 0 - f (getCol zd i)) := by
  simp only [colOp]
  exact listGetDMap _ zd r [] [] hr

theorem sllColLoop_spec (f : List ℚ → ℚ) :
    ∀ (idxs : List ℕ) (h : SllHeap), idxs.Nodup →
      (∀ i ∈ idxs, i < ncols h.zdata) →
      (∀ row ∈ h.zdata, row.length = ncols h.zdata) →
      (sllColLoop f idxs h).2 = true ∧
      (sllColLoop f idxs h).1.zdata.length = h.zdata.length ∧
      ∀ r, r < h.zdata.length →
        ((sllColLoop f idxs h).1.zdata.getD r []).length =
          (h.zdata.getD r []).length ∧
        ∀ c, getEntry (sllColLoop f idxs h).1.zdata r c =
          if c ∈ idxs then getEntry h.zdata r c - f (getCol h.zdata c)
          else getEntry h.zdata r c := by
  intro idxs
  induction idxs with
  | nil =>
    intro h _ _ _
    exact ⟨rfl, rfl, fun r _ => ⟨rfl, fun c => by simp [sllColLoop]⟩⟩
  | cons i rest ih =>
    intro h hnd hlt hrect
    have hi : i < ncols h.zdata := hlt i (by simp)
    have hni : i ∉ rest := (List.nodup_cons.mp hnd).1
    have hnd2 : rest.Nodup := (List.nodup_cons.mp hnd).2
    have hstep : sllColLoop f (i :: rest) h =
        sllColLoop f rest (sllWrite h (colOp f i)) := by
      simp [sllColLoop, hi]
    have hz2 : (sllWrite h (colOp f i)).zdata = colOp f i h.zdata := rfl
    have hnc2 : ncols (sllWrite h (colOp f i)).zdata = ncols h.zdata := by
      rw [hz2, ncols_colOp]
    have hlen2 : (sllWrite h (colOp f i)).zdata.length = h.zdata.length := by
      rw [hz2, length_colOp]
    have hrect2 : ∀ row ∈ (sllWrite h (colOp f i)).zdata,
        row.length = ncols (sllWrite h (colOp f i)).zdata := by
      rw [hz2]
      exact rect_colOp f i h.zdata hrect
    have hlt2 : ∀ j ∈ rest, j < ncols (sllWrite h (colOp f i)).zdata := by
      rw [hnc2]
      exact fun j hj => hlt j (List.mem_cons_of_mem i hj)
    obtain ⟨hok, hlen3, hrc⟩ := ih (sllWrite h (colOp f i)) hnd2 hlt2 hrect2
    rw [hstep]
    refine ⟨hok, hlen3.trans hlen2, ?_⟩
    intro r hr
    have hr2 : r < (sllWrite h (colOp f i)).zdata.length := by rw [hlen2]; exact hr
    obtain ⟨hrowlen, hentry⟩ := hrc r hr2
    have hrowmem : h.zdata.getD r [] ∈ h.zdata := getDMemOfLt _ r [] hr
    have hirow : i < (h.zdata.getD r []).length := by
      rw [hrect _ hrowmem]; exact hi
    have hgd2 : (sllWrite h (colOp f i)).zdata.getD r [] =
        (h.zdata.getD r []).set i
          ((h.zdata.getD r []).getD i 0 - f (getCol h.zdata i)) := by
      rw [hz2]; exact getD_colOp f i h.zdata r hr
    have hentry2 : ∀ c, getEntry (sllWrite h (colOp f i)).zdata r c =
        if c = i then getEntry h.zdata r i - f (getCol h.zdata i)
        else getEntry h.zdata r c := by
      intro c
      simp only [getEntry]
      rw [hgd2, listGetDSet]
      by_cases hc : c = i
      · subst hc
        rw [if_pos ⟨rfl, hirow⟩, if_pos rfl]
      · rw [if_neg (fun hcon => hc hcon.1), if_neg hc]
    constructor
    · rw [hrowlen, hgd2, List.length_set]
    · intro c
      rw [hentry c]
      by_cases hcr : c ∈ rest
      · have hcne : c ≠ i := fun he => hni (he ▸ hcr)
        rw [if_pos hcr, hentry2 c, if_neg hcne, hz2, getCol_colOp_ne f i c _ hcne,
          if_pos (List.mem_cons_of_mem i hcr)]
      · rw [if_neg hcr, hentry2 c]
        by_cases hci : c = i
        · rw [if_pos hci, if_pos (by rw [hci]; exact List.mem_cons_self i rest), hci]
        · rw [if_neg hci, if_neg (by simp [hci, hcr])]

theorem sllRowLoop_spec (f : List ℚ → ℚ) :
    ∀ (idxs : List ℕ) (h : SllHeap), idxs.Nodup →
      (sllRowLoop f idxs h).zdata.length = h.zdata.length ∧
      ∀ i, (sllRowLoop f idxs h).zdata.getD i [] =
        if i ∈ idxs then
          (h.zdata.getD i []).map (fun v => v - f (h.zdata.getD i []))
        else h.zdata.getD i [] := by
  intro idxs
  induction idxs with
  | nil =>
    intro h _
    exact ⟨rfl, fun i => by simp [sllRowLoop]⟩
  | cons j rest ih =>
    intro h hnd
    have hnj : j ∉ rest := (List.nodup_cons.mp hnd).1
    have hnd2 : rest.Nodup := (List.nodup_cons.mp hnd).2
    have hz2 : (sllWrite h (rowOp f j)).zdata =
        h.zdata.set j ((h.zdata.getD j []).map (fun v => v - f (h.zdata.getD j []))) :=
      rfl
    have hlen2 : (sllWrite h (rowOp f j)).zdata.length = h.zdata.length := by
      rw [hz2, List.length_set]
    obtain ⟨hlen3, hgd⟩ := ih (sllWrite h (rowOp f j)) hnd2
    have hstep : sllRowLoop f (j :: rest) h = sllRowLoop f rest (sllWrite h (rowOp f j)) :=
      rfl
    rw [hstep]
    refine ⟨hlen3.trans hlen2, ?_⟩
    intro i
    have hgd2 : ∀ i2, (sllWrite h (rowOp f j)).zdata.getD i2 [] =
        if i2 = j ∧ j < h.zdata.length then
          (h.zdata.getD j []).map (fun v => v - f (h.zdata.getD j []))
        else h.zdata.getD i2 [] := by
      intro i2
      rw [hz2, listGetDSet]
    rw [hgd i]
    by_cases hir : i ∈ rest
    · have hij : i ≠ j := fun he => hnj (he ▸ hir)
      rw [if_pos hir, hgd2 i, if_neg (by simp [hij]),
        if_pos (List.mem_cons_of_mem j hir)]
    · rw [if_neg hir, hgd2 i]
      by_cases hij : i = j
      · subst hij
        rw [if_pos (List.mem_cons_self i rest)]
        by_cases hjl : i < h.zdata.length
        · rw [if_pos ⟨rfl, hjl⟩]
        · rw [if_neg (fun hcon => hjl hcon.2),
            List.getD_eq_default _ _ (Nat.le_of_not_lt hjl)]
          simp
      · rw [if_neg (fun hcon => hij hcon.1),
          if_neg (fun hcon => (List.mem_cons.mp hcon).elim hij hir)]

theorem sllRowLoop_frame (f : List ℚ → ℚ) :
    ∀ (idxs : List ℕ) (h : SllHeap), h.aliased = false →
      (sllRowLoop f idxs h).caller = h.caller ∧
      (sllRowLoop f idxs h).aliased = false := by
  intro idxs
  induction idxs with
  | nil => exact fun h _ => ⟨rfl, by assumption⟩
  | cons j rest ih =>
    intro h hal
    have h2 : (sllWrite h (rowOp f j)).aliased = false := hal
    obtain ⟨hc, ha⟩ := ih (sllWrite h (rowOp f j)) h2
    refine ⟨?_, ha⟩
    rw [show sllRowLoop f (j :: rest) h = sllRowLoop f rest (sllWrite h (rowOp f j)) from rfl,
      hc]
    simp [sllWrite, hal]

theorem sllColLoop_frame (f : List ℚ → ℚ) :
    ∀ (idxs : List ℕ) (h : SllHeap), h.aliased = false →
      (sllColLoop f idxs h).1.caller = h.caller ∧
      (sllColLoop f idxs h).1.aliased = false := by
  intro idxs
  induction idxs with
  | nil => exact fun h hal => ⟨rfl, hal⟩
  | cons j rest ih =>
    intro h hal
    by_cases hj : j < ncols h.zdata
    · have hstep : sllColLoop f (j :: rest) h =
          sllColLoop f rest (sllWrite h (colOp f j)) := by
        simp [sllColLoop, hj]
      have h2 : (sllWrite h (colOp f j)).aliased = false := hal
      obtain ⟨hc, ha⟩ := ih (sllWrite h (colOp f j)) h2
      rw [hstep]
      refine ⟨?_, ha⟩
      rw [hc]
      simp [sllWrite, hal]
    · have hstep : sllColLoop f (j :: rest) h = (h, false) := by
        simp [sllColLoop, hj]
      rw [hstep]
      exact ⟨rfl, hal⟩

theorem subtract_line_by_line_zero_eq (z : List (List ℚ)) (f : List ℚ → ℚ) :
    subtract_line_by_line z 0 f =
      (sllRowLoop f (List.range z.length) (sllCopy ⟨z, z, true⟩),
        some (sllRowLoop f (List.range z.length) (sllCopy ⟨z, z, true⟩)).zdata) :=
  rfl

theorem subtract_line_by_line_ne_zero_eq (z : List (List ℚ)) (axis : ℤ)
    (f : List ℚ → ℚ) (hax : axis ≠ 0) :
    subtract_line_by_line z axis f =
      match pyTupleGet [z.length, ncols z] axis with
      | none => (sllCopy ⟨z, z, true⟩, none)
      | some n => ((sllColLoop f (List.range n) (sllCopy ⟨z, z, true⟩)).1,
          if (sllColLoop f (List.range n) (sllCopy ⟨z, z, true⟩)).2 then
            some (sllColLoop f (List.range n) (sllCopy ⟨z, z, true⟩)).1.zdata
          else none) := by
  unfold subtract_line_by_line
  rw [if_neg hax]
  rfl

theorem pyTupleGet_pair_one (a b : ℕ) : pyTupleGet [a, b] 1 = some b := rfl

/-- C9: `subtract_line_by_line` never mutates its argument: whatever the
axis and reduction function, the caller array after the call holds exactly
the values it held before (the function works on a fresh copy). -/
theorem subtract_line_by_line_preserves_argument (z : List (List ℚ)) (axis : ℤ)
    (f : List ℚ → ℚ) : (subtract_line_by_line z axis f).1.caller = z := by
  by_cases hax : axis = 0
  · subst hax
    rw [subtract_line_by_line_zero_eq]
    exact (sllRowLoop_frame f (List.range z.length) (sllCopy ⟨z, z, true⟩) rfl).1
  · rw [subtract_line_by_line_ne_zero_eq z axis f hax]
    cases hpt : pyTupleGet [z.length, ncols z] axis with
    | none => rfl
    | some n =>
      exact (sllColLoop_frame f (List.range n) (sllCopy ⟨z, z, true⟩) rfl).1

/-- C1 (amended): for a rectangular 2D array, axis 0 subtracts `f` of each
row from that row, and axis 1 subtracts `f` of each column from that
column; other axis values are not covered (axis 2 raises IndexError, see
the counterexample). -/
theorem subtract_line_by_line_rows_and_columns (z : List (List ℚ))
    (f : List ℚ → ℚ) (hrect : ∀ row ∈ z, row.length = ncols z) :
    (∃ w, (subtract_line_by_line z 0 f).2 = some w ∧
      w.length = z.length ∧
      ∀ i, i < z.length →
        w.getD i [] = (z.getD i []).map (fun v => v - f (z.getD i []))) ∧
    (∃ w, (subtract_line_by_line z 1 f).2 = some w ∧
      w.length = z.length ∧
      ∀ r, r < z.length →
        (w.getD r []).length = ncols z ∧
        ∀ c, c < ncols z → getEntry w r c = getEntry z r c - f (getCol z c)) := by
  constructor
  · obtain ⟨hlen, hgd⟩ := sllRowLoop_spec f (List.range z.length)
      (sllCopy ⟨z, z, true⟩) (List.nodup_range z.length)
    refine ⟨(sllRowLoop f (List.range z.length) (sllCopy ⟨z, z, true⟩)).zdata,
      ?_, hlen, ?_⟩
    · rw [subtract_line_by_line_zero_eq]
    · intro i hi
      have hg := hgd i
      rwa [if_pos (List.mem_range.mpr hi)] at hg
  · have hrect2 : ∀ row ∈ (sllCopy ⟨z, z, true⟩ : SllHeap).zdata,
        row.length = ncols (sllCopy ⟨z, z, true⟩ : SllHeap).zdata := hrect
    obtain ⟨hok, hlen, hrc⟩ := sllColLoop_spec f (List.range (ncols z))
      (sllCopy ⟨z, z, true⟩) (List.nodup_range _)
      (fun i hi => List.mem_range.mp hi) hrect2
    refine ⟨(sllColLoop f (List.range (ncols z)) (sllCopy ⟨z, z, true⟩)).1.zdata,
      ?_, hlen, ?_⟩
    · rw [subtract_line_by_line_ne_zero_eq z 1 f (by decide), pyTupleGet_pair_one]
      show (if (sllColLoop f (List.range (ncols z)) (sllCopy ⟨z, z, true⟩)).2 then
        some (sllColLoop f (List.range (ncols z)) (sllCopy ⟨z, z, true⟩)).1.zdata
        else none) = _
      rw [hok]
      simp
    · intro r hr
      obtain ⟨hrl, hentry⟩ := hrc r hr
      refine ⟨?_, ?_⟩
      · rw [hrl]
        exact hrect _ (getDMemOfLt z r [] hr)
      · intro c hc
        have hg := hentry c
        rwa [if_pos (List.mem_range.mpr hc)] at hg

/-- Witness for C1: the amended theorem evaluated on the concrete array
`[[5]]` with the reduction taking the first entry of a line. -/
theorem subtract_line_by_line_rows_and_columns_witness :
    (∀ row ∈ [[(5:ℚ)]], row.length = ncols [[(5:ℚ)]]) ∧
    ((∃ w, (subtract_line_by_line [[(5:ℚ)]] 0 (fun l => l.getD 0 0)).2 = some w ∧
        w.length = [[(5:ℚ)]].length ∧
        ∀ i, i < [[(5:ℚ)]].length →
          w.getD i [] = (([[(5:ℚ)]]).getD i []).map
            (fun v => v - (([[(5:ℚ)]]).getD i []).getD 0 0)) ∧
      (∃ w, (subtract_line_by_line [[(5:ℚ)]] 1 (fun l => l.getD 0 0)).2 = some w ∧
        w.length = [[(5:ℚ)]].length ∧
        ∀ r, r < [[(5:ℚ)]].length →
          (w.getD r []).length = ncols [[(5:ℚ)]] ∧
          ∀ c, c < ncols [[(5:ℚ)]] →
            getEntry w r c = getEntry [[(5:ℚ)]] r c - (getCol [[(5:ℚ)]] c).getD 0 0)) :=
  ⟨by decide,
    subtract_line_by_line_rows_and_columns [[(5:ℚ)]] (fun l => l.getD 0 0) (by decide)⟩

/-- Counterexample for C1 as stated: the claim asserts that any axis value
other than 0 performs per-column subtraction, so with `z = [[1]]`,
`axis = 2` and the zero reduction the result would be `[[1]]`; in fact
`zdata.shape[2]` raises IndexError and no array is returned. -/
theorem subtract_line_by_line_axis_two_raises :
    (subtract_line_by_line [[(1:ℚ)]] 2 (fun _ => 0)).2 ≠ some [[(1:ℚ)]] := by
  decide

/-!
## Lemmas for the best-fit reductions
-/

theorem maskPair_of_nonfinite (yi a : ℚ) (v : PyF) (hv : v.isfinite = false) :
    maskPair yi (a, v) = none := by
  cases v with
  | fin q => simp [PyF.isfinite] at hv
  | nan => rfl
  | inf => rfl
  | ninf => rfl

theorem filterMap_maskPair_congr (yi : ℚ) :
    ∀ (r r2 : List PyF), List.Forall₂ obsEq r r2 →
      ∀ (x : List ℚ),
        (x.zip r).filterMap (maskPair yi) = (x.zip r2).filterMap (maskPair yi) := by
  intro r r2 hf
  induction hf with
  | nil => intro x; rfl
  | @cons a b t t2 hab _ ih =>
    intro x
    cases x with
    | nil => rfl
    | cons xa xt =>
      simp only [List.zip_cons_cons, List.filterMap_cons]
      by_cases hfin : a.isfinite = true
      · rw [← hab.2 hfin, ih xt]
      · rw [maskPair_of_nonfinite yi xa a (Bool.not_eq_true _ ▸ hfin),
          maskPair_of_nonfinite yi xa b (by rw [← hab.1]; exact Bool.not_eq_true _ ▸ hfin),
          ih xt]

theorem maskedData_congr (x : List ℚ) :
    ∀ (z z2 : List (List PyF)), List.Forall₂ (List.Forall₂ obsEq) z z2 →
      ∀ (y : List ℚ), maskedData x y z = maskedData x y z2 := by
  intro z z2 hf
  induction hf with
  | nil => intro y; rfl
  | @cons r r2 t t2 hab _ ih =>
    intro y
    cases y with
    | nil => rfl
    | cons yh yt =>
      simp only [maskedData, List.zip_cons_cons, List.flatMap_cons]
      rw [filterMap_maskPair_congr yh r r2 hab x]
      have ht := ih yt
      simp only [maskedData] at ht
      rw [ht]

/-- C2 (amended): `fit_plane` ignores non-finite values in `z` (for any
least-squares solver, its output depends only on the finiteness mask and
the finite entries), while `fit_line` does not ignore them: it hands all
points to `np.polyfit`, so a non-finite entry of `y` changes the result
away from the masked ordinary-least-squares fit. -/
theorem fit_plane_masks_fit_line_does_not :
    (∀ (solver : List (ℚ × ℚ × ℚ) → List ℚ → ℚ × ℚ × ℚ) (x y : List ℚ)
        (z z2 : List (List PyF)), List.Forall₂ (List.Forall₂ obsEq) z z2 →
        fit_plane solver x y z = fit_plane solver x y z2) ∧
    (∃ x : List ℚ, ∃ y : List PyF, (∃ v ∈ y, v.isfinite = false) ∧
        fit_line x y ≠ fit_line_masked x y) := by
  constructor
  · intro solver x y z z2 hf
    unfold fit_plane
    rw [maskedData_congr x z z2 hf y]
  · refine ⟨[0, 1, 2], [PyF.fin 0, PyF.fin 0, PyF.nan], ⟨PyF.nan, by decide, rfl⟩, ?_⟩
    decide

/-- Witness for C2: two arrays that differ only in the kind of their single
non-finite entry (nan versus inf) produce the same best-fit plane. -/
theorem fit_plane_masks_witness :
    List.Forall₂ (List.Forall₂ obsEq) [[PyF.nan]] [[PyF.inf]] ∧
    fit_plane (fun _ _ => ((0:ℚ), (0:ℚ), (0:ℚ))) [0] [0] [[PyF.nan]] =
      fit_plane (fun _ _ => ((0:ℚ), (0:ℚ), (0:ℚ))) [0] [0] [[PyF.inf]] := by
  have hobs : obsEq PyF.nan PyF.inf := ⟨rfl, fun h => absurd h (by decide)⟩
  have hz : List.Forall₂ (List.Forall₂ obsEq) [[PyF.nan]] [[PyF.inf]] :=
    List.Forall₂.cons (List.Forall₂.cons hobs List.Forall₂.nil) List.Forall₂.nil
  exact ⟨hz, fit_plane_masks_fit_line_does_not.1 _ [0] [0] _ _ hz⟩

/-- Counterexample for C2 as stated: with `x = [0, 1, 2]` and
`y = [0, 0, nan]`, ordinary least squares over the finite positions gives
the zero line `[0, 0, 0]`, but `fit_line` passes the nan to `np.polyfit`
unmasked, so its result is not that fit (every entry is nan). -/
theorem fit_line_counterexample :
    fit_line [0, 1, 2] [PyF.fin 0, PyF.fin 0, PyF.nan] ≠
      fit_line_masked [0, 1, 2] [PyF.fin 0, PyF.fin 0, PyF.nan] := by
  decide

/-!
## Lemmas for slice extraction and masking
-/

theorem applyMask_cons {α : Type} (b : Bool) (m : List Bool) (a : α) (l : List α) :
    applyMask (b :: m) (a :: l) = if b then a :: applyMask m l else applyMask m l := by
  cases b <;> simp [applyMask]

theorem applyMask_self_finite {α : Type} (p : α → Bool) :
    ∀ (l : List α) (v : α), v ∈ applyMask (l.map p) l → p v = true := by
  intro l
  induction l with
  | nil => intro v hv; simp [applyMask] at hv
  | cons a t ih =>
    intro v hv
    rw [List.map_cons, applyMask_cons] at hv
    by_cases hpa : p a = true
    · rw [if_pos hpa] at hv
      rcases List.mem_cons.mp hv with hva | hvt
      · rw [hva]; exact hpa
      · exact ih v hvt
    · rw [if_neg hpa] at hv
      exact ih v hv

theorem applyMask_zip_filter {α β : Type} (p : β → Bool) :
    ∀ (ys : List β) (xs : List α), xs.length = ys.length →
      (applyMask (ys.map p) xs).zip (applyMask (ys.map p) ys) =
        (xs.zip ys).filter (fun q => p q.2) := by
  intro ys
  induction ys with
  | nil =>
    intro xs hlen
    rw [List.length_eq_zero.mp hlen]
    rfl
  | cons y yt ih =>
    intro xs hlen
    cases xs with
    | nil => simp at hlen
    | cons x xt =>
      rw [List.map_cons, applyMask_cons, applyMask_cons, List.zip_cons_cons,
        List.filter_cons]
      by_cases hp : p y = true
      · rw [if_pos hp, if_pos hp, List.zip_cons_cons, ih xt (by simpa using hlen)]
        simp [hp]
      · rw [if_neg hp, if_neg hp, ih xt (by simpa using hlen)]
        simp [hp]

/-- C3 (amended): in the initial slice construction of `plot_2d_mpl`
(lines 654-664) the positions where the slice value is non-finite are
removed from both the slice values and the matching coordinate array:
every surviving value is finite and the surviving coordinate/value pairs
are exactly the finite-valued pairs of the raw slice.  The slider callback
`update` does not repeat this masking (see the counterexample). -/
theorem initial_slice_masks (ax : SliceAxis) (xm ym : List PyF)
    (zm : List (List PyF))
    (hlen : (slice_source_xs ax xm ym).length = (slice_source_ys ax zm).length) :
    (∀ v ∈ (initial_slice ax xm ym zm).2, v.isfinite = true) ∧
    ((initial_slice ax xm ym zm).1).zip ((initial_slice ax xm ym zm).2) =
      ((slice_source_xs ax xm ym).zip (slice_source_ys ax zm)).filter
        (fun q => q.2.isfinite) := by
  constructor
  · intro v hv
    exact applyMask_self_finite PyF.isfinite (slice_source_ys ax zm) v hv
  · exact applyMask_zip_filter PyF.isfinite (slice_source_ys ax zm)
      (slice_source_xs ax xm ym) hlen

/-- Witness for C3: the masked initial slice of a concrete 1-row array
with one nan keeps exactly the finite pair. -/
theorem initial_slice_masks_witness :
    ((slice_source_xs SliceAxis.x [PyF.fin 1, PyF.fin 2] []).length =
      (slice_source_ys SliceAxis.x [[PyF.fin 3, PyF.nan]]).length) ∧
    ((∀ v ∈ (initial_slice SliceAxis.x [PyF.fin 1, PyF.fin 2] []
        [[PyF.fin 3, PyF.nan]]).2, v.isfinite = true) ∧
      ((initial_slice SliceAxis.x [PyF.fin 1, PyF.fin 2] []
          [[PyF.fin 3, PyF.nan]]).1).zip
        ((initial_slice SliceAxis.x [PyF.fin 1, PyF.fin 2] []
          [[PyF.fin 3, PyF.nan]]).2) =
      ((slice_source_xs SliceAxis.x [PyF.fin 1, PyF.fin 2] []).zip
          (slice_source_ys SliceAxis.x [[PyF.fin 3, PyF.nan]])).filter
        (fun q => q.2.isfinite)) :=
  ⟨by decide,
    initial_slice_masks SliceAxis.x [PyF.fin 1, PyF.fin 2] []
      [[PyF.fin 3, PyF.nan]] (by decide)⟩

/-- Counterexample for C3 as stated: a slice selected later through the
index slider goes through `update`, which hands the raw row `z[i, :]` to
the segment construction and to `lc.set_array` without removing non-finite
positions: for `z = [[0, nan]]` the array used downstream still contains a
non-finite value. -/
theorem update_slice_keeps_nonfinite :
    ¬ ∀ v ∈ update_slice_z0 SliceAxis.x [[PyF.fin 0, PyF.nan]] 0,
        v.isfinite = true := by
  intro hall
  have hmem : PyF.nan ∈ update_slice_z0 SliceAxis.x [[PyF.fin 0, PyF.nan]] 0 := by
    decide
  have := hall PyF.nan hmem
  simp [PyF.isfinite] at this

/-- C5: extracting the row slice at index `i` (slice state "x") from an
`N` by `M` array yields the `i`-th row: a vector of length `M` whose
`j`-th entry is the `(i, j)` entry of the array. -/
theorem slice_x_returns_row (z : List (List PyF)) (M : ℕ)
    (hrect : ∀ r ∈ z, r.length = M) (i : ℕ) (hi : i < z.length) :
    (update_slice_z0 SliceAxis.x z i).length = M ∧
    update_slice_z0 SliceAxis.x z i = z.getD i [] ∧
    ∀ j, j < M → (update_slice_z0 SliceAxis.x z i).getD j (PyF.fin 0) =
      (z.getD i []).getD j (PyF.fin 0) := by
  refine ⟨?_, rfl, fun j _ => rfl⟩
  show (z.getD i []).length = M
  exact hrect _ (getDMemOfLt z i [] hi)

/-- Witness for C5: the row slice of a concrete 2 by 2 array at index 1. -/
theorem slice_x_returns_row_witness :
    (∀ r ∈ [[PyF.fin 1, PyF.fin 2], [PyF.fin 3, PyF.fin 4]], r.length = 2) ∧
    (1 < ([[PyF.fin 1, PyF.fin 2], [PyF.fin 3, PyF.fin 4]] : List (List PyF)).length) ∧
    ((update_slice_z0 SliceAxis.x [[PyF.fin 1, PyF.fin 2], [PyF.fin 3, PyF.fin 4]] 1).length = 2 ∧
      update_slice_z0 SliceAxis.x [[PyF.fin 1, PyF.fin 2], [PyF.fin 3, PyF.fin 4]] 1 =
        ([[PyF.fin 1, PyF.fin 2], [PyF.fin 3, PyF.fin 4]] : List (List PyF)).getD 1 [] ∧
      ∀ j, j < 2 →
        (update_slice_z0 SliceAxis.x [[PyF.fin 1, PyF.fin 2], [PyF.fin 3, PyF.fin 4]] 1).getD j (PyF.fin 0) =
          (([[PyF.fin 1, PyF.fin 2], [PyF.fin 3, PyF.fin 4]] : List (List PyF)).getD 1 []).getD j (PyF.fin 0)) :=
  ⟨by decide, by decide,
    slice_x_returns_row [[PyF.fin 1, PyF.fin 2], [PyF.fin 3, PyF.fin 4]] 2
      (by decide) 1 (by decide)⟩

/-!
## Lemmas for the rotation stage
-/

theorem length_tpose (z : List (List ℚ)) : (tpose z).length = ncols z := by
  simp [tpose]

theorem tpose_getElem (w : List (List ℚ)) (i : ℕ) (h : i < (tpose w).length) :
    (tpose w)[i] = w.map (fun r => r.getD i 0) := by
  simp only [tpose] at h ⊢
  rw [List.getElem_map, List.getElem_range]

theorem ncols_tpose_of_pos (w : List (List ℚ)) (hw : 0 < ncols w) :
    ncols (tpose w) = w.length := by
  have hb : 0 < (List.range (ncols w)).length := by
    rw [List.length_range]; exact hw
  have hgd0 : (tpose w).getD 0 [] = w.map (fun r => r.getD 0 0) := by
    show ((List.range (ncols w)).map
      (fun j => w.map (fun r => r.getD j 0))).getD 0 [] = _
    rw [listGetDMap _ _ 0 0 [] hb, List.getD_eq_getElem _ _ hb, List.getElem_range]
  show ((tpose w).getD 0 []).length = w.length
  rw [hgd0, List.length_map]

theorem tpose_tpose (z : List (List ℚ)) (m : ℕ) (hm : 0 < m)
    (hrect : ∀ r ∈ z, r.length = m) : tpose (tpose z) = z := by
  cases z with
  | nil => rfl
  | cons r0 zt =>
    have hnc : ncols (r0 :: zt) = m := hrect r0 (by simp)
    have hnc_tz : ncols (tpose (r0 :: zt)) = (r0 :: zt).length :=
      ncols_tpose_of_pos (r0 :: zt) (by rw [hnc]; exact hm)
    apply List.ext_getElem
    · rw [length_tpose, hnc_tz]
    · intro i h1 h2
      rw [tpose_getElem (tpose (r0 :: zt)) i h1]
      have e2 : (tpose (r0 :: zt)).map (fun c : List ℚ => c.getD i 0) =
          (List.range m).map (fun j => ((r0 :: zt).getD i []).getD j 0) := by
        simp only [tpose, List.map_map, hnc]
        apply List.map_congr_left
        intro j _
        simp only [Function.comp_apply]
        exact listGetDMap (fun r => r.getD j 0) (r0 :: zt) i [] 0 h2
      rw [e2]
      have hrow : ((r0 :: zt).getD i []).length = m :=
        hrect _ (getDMemOfLt (r0 :: zt) i [] h2)
      rw [← hrow, mapGetDRange ((r0 :: zt).getD i []) 0]
      exact List.getD_eq_getElem (r0 :: zt) [] h2

/-- C4: rotating by 0 degrees is the identity.  In both plotting pipelines
the transform is `z = zs.T` followed by `if angle: z = rotate(...)`: at
angle 0 the rotation stage returns its input unchanged (first conjunct,
the array handed to pyqtgraph and to the export dictionary), and the
matplotlib export `z.T` equals the original array element for element
(second conjunct). -/
theorem rotation_zero_identity (rot : ℚ → List (List ℚ) → List (List ℚ))
    (z : List (List ℚ)) (m : ℕ) (hm : 0 < m) (hrect : ∀ r ∈ z, r.length = m) :
    apply_rotation rot 0 (tpose z) = tpose z ∧
    tpose (apply_rotation rot 0 (tpose z)) = z := by
  have h1 : apply_rotation rot 0 (tpose z) = tpose z := by
    simp [apply_rotation]
  refine ⟨h1, ?_⟩
  rw [h1]
  have hnc : ncols z = m ∨ z = [] := by
    cases z with
    | nil => exact Or.inr rfl
    | cons r0 zt => exact Or.inl (hrect r0 (by simp))
  rcases hnc with hnc | rfl
  · exact tpose_tpose z m hm hrect
  · rfl

/-- Witness for C4: the rotation stage at angle 0 on a concrete 2 by 2
array, with an arbitrary concrete model of `rotate`. -/
theorem rotation_zero_identity_witness :
    (0 < 2) ∧ (∀ r ∈ [[(1:ℚ), 2], [3, 4]], r.length = 2) ∧
    (apply_rotation (fun _ w => w) 0 (tpose [[(1:ℚ), 2], [3, 4]]) =
        tpose [[(1:ℚ), 2], [3, 4]] ∧
      tpose (apply_rotation (fun _ w => w) 0 (tpose [[(1:ℚ), 2], [3, 4]])) =
        [[(1:ℚ), 2], [3, 4]]) :=
  ⟨by decide, by decide,
    rotation_zero_identity (fun _ w => w) [[(1:ℚ), 2], [3, 4]] 2 (by decide)
      (by decide)⟩

/-!
## Lemmas for global mean subtraction
-/

theorem sum_map_sub_const (l : List ℚ) (c : ℚ) :
    (l.map (fun a => a - c)).sum = l.sum - l.length * c := by
  induction l with
  | nil => simp
  | cons a t ih =>
    simp only [List.map_cons, List.sum_cons, ih, List.length_cons]
    push_cast
    ring

theorem all_finite_eq_map_fin (y : List PyF)
    (hfin : ∀ v ∈ y, v.isfinite = true) :
    y = (y.filterMap PyF.toRat).map PyF.fin := by
  induction y with
  | nil => rfl
  | cons v t ih =>
    have hv := hfin v (by simp)
    cases v with
    | fin q =>
      simp only [List.filterMap_cons, PyF.toRat, List.map_cons]
      exact congrArg (List.cons (PyF.fin q)) (ih (fun w hw => hfin w (by simp [hw])))
    | nan => simp [PyF.isfinite] at hv
    | inf => simp [PyF.isfinite] at hv
    | ninf => simp [PyF.isfinite] at hv

theorem pfSum_map_fin (l : List ℚ) : pfSum (l.map PyF.fin) = PyF.fin l.sum := by
  induction l with
  | nil => rfl
  | cons a t ih =>
    simp only [List.map_cons, pfSum, List.foldr_cons] at ih ⊢
    rw [ih]
    simp [PyF.add]

theorem nanmean_map_fin (qs : List ℚ) (h : qs ≠ []) :
    nanmean (qs.map PyF.fin) = PyF.fin (qs.sum / qs.length) := by
  have hfm : (qs.map PyF.fin).filterMap PyF.toRat = qs := by
    rw [List.filterMap_map]
    exact List.filterMap_some qs
  rw [nanmean]
  simp only [hfm]
  rw [if_neg (fun h0 => h (List.length_eq_zero.mp h0))]

/-- C6: subtracting the global mean (the reduction at index 3,
`np.nanmean`) from a finite non-empty array and then summing the result
gives exactly zero in exact arithmetic. -/
theorem mean_subtracted_sums_to_zero (y : List PyF) (hne : y ≠ [])
    (hfin : ∀ v ∈ y, v.isfinite = true) :
    pfSum (subtract_background_global nanmean y) = PyF.fin 0 := by
  obtain ⟨qs, rfl⟩ : ∃ qs : List ℚ, y = qs.map PyF.fin :=
    ⟨y.filterMap PyF.toRat, all_finite_eq_map_fin y hfin⟩
  have hqne : qs ≠ [] := by
    intro h0
    rw [h0] at hne
    exact hne rfl
  rw [subtract_background_global, nanmean_map_fin qs hqne, List.map_map]
  have hcomp : (fun v => PyF.sub v (PyF.fin (qs.sum / qs.length))) ∘ PyF.fin =
      PyF.fin ∘ (fun a => a - qs.sum / qs.length) := by
    funext a
    simp [Function.comp_apply, PyF.sub, PyF.neg, PyF.add, sub_eq_add_neg]
  rw [hcomp, ← List.map_map, pfSum_map_fin, sum_map_sub_const]
  have hlen : ((qs.length : ℚ)) ≠ 0 := by
    intro h0
    exact hqne (List.length_eq_zero.mp (by exact_mod_cast h0))
  rw [mul_div_cancel₀ _ hlen]
  simp

/-- Witness for C6: the concrete array `[1, 3]` has mean 2 and the
mean-subtracted entries sum to zero. -/
theorem mean_subtracted_sums_to_zero_witness :
    (([PyF.fin 1, PyF.fin 3] : List PyF) ≠ []) ∧
    (∀ v ∈ ([PyF.fin 1, PyF.fin 3] : List PyF), v.isfinite = true) ∧
    pfSum (subtract_background_global nanmean [PyF.fin 1, PyF.fin 3]) =
      PyF.fin 0 :=
  ⟨by decide, by decide,
    mean_subtracted_sums_to_zero [PyF.fin 1, PyF.fin 3] (by decide) (by decide)⟩

/-- C7: when the conversion of an array to the entered unit is undefined
the `ito` call raises, the handler keeps the array (magnitude and unit)
exactly as it was, and the displayed unit field is reset to the string of
the native unit; the model is total, so no exception escapes. -/
theorem unit_conversion_fallback (conv : String → String → Option ℚ)
    (mag : List ℚ) (u txt : String) (hfail : conv u txt = none) :
    unit_convert_attempt conv mag u txt = ((mag, u), u) := by
  rw [unit_convert_attempt, ito_model, hfail]
  rfl

/-- Witness for C7: a conversion table that defines no conversion leaves a
concrete array untouched and resets the field to the native unit. -/
theorem unit_conversion_fallback_witness :
    ((fun _ _ => (none : Option ℚ)) "volt" "meter" = none) ∧
    unit_convert_attempt (fun _ _ => none) [(1:ℚ)] "volt" "meter" =
      (([(1:ℚ)], "volt"), "volt") :=
  ⟨rfl, unit_conversion_fallback (fun _ _ => none) [(1:ℚ)] "volt" "meter" rfl⟩

/-- C8 (amended): data-export failures are silently swallowed: whatever
the `.mat`, `.h5` and `.pickle` save functions do, `export_data` returns
normally.  Figure export does not share this behaviour (see the
counterexample for `export_mpl`). -/
theorem export_data_swallows (exp_data : List (String × List ℚ)) (path : String)
    (savemat saveh5 savepickle :
      String → List (String × List ℚ) → Except String Unit) :
    export_data exp_data path savemat saveh5 savepickle = Except.ok () := by
  unfold export_data
  split
  · rfl
  split
  · split <;> rfl
  split
  · split <;> rfl
  split
  · split <;> rfl
  · rfl

/-- Counterexample for C8 as stated: the claim covers figure export too,
but `export_mpl` wraps `fig.savefig` in no handler, so a failing save
propagates instead of returning normally. -/
theorem export_mpl_propagates :
    export_mpl false (Except.error "disk full") ≠ Except.ok () := by
  rw [export_mpl]
  simp

/-- C10: in `subtract_background`, `idx = idx or checkedId()` replaces an
explicit `idx = 0` (and `None`) by the checked radio id, while every
nonzero idx is used as passed. -/
theorem subtract_background_idx_spec (c : ℤ) :
    subtract_background_idx (some 0) c = c ∧
    subtract_background_idx none c = c ∧
    ∀ i : ℤ, i ≠ 0 → subtract_background_idx (some i) c = i := by
  refine ⟨rfl, rfl, ?_⟩
  intro i hi
  rw [subtract_background_idx]
  simp [hi]

/-- Witness for C10: with checked id 5, an explicit request for reduction 0
resolves to 5, while the nonzero request 2 stays 2. -/
theorem subtract_background_idx_spec_witness :
    ((2:ℤ) ≠ 0) ∧ subtract_background_idx (some 0) 5 = 5 ∧
      subtract_background_idx (some 2) 5 = 2 :=
  ⟨by decide, (subtract_background_idx_spec 5).1,
    (subtract_background_idx_spec 5).2.2 2 (by decide)⟩
